import Mathlib

set_option maxHeartbeats 1000000

/-!
Shallow embedding of the Libonet/minigrep repository
(src/lib.rs, src/thread_pool.rs, src/main.rs).

Rust strings are modelled as lists of characters and byte indices as
positions into that list; `usize` as `Nat`.  Fallible operations return
`Option`, and a Rust panic is modelled by a distinguished result value.
-/

/-- Rust `&str` values are modelled as lists of characters. -/
abbrev Str := List Char

/-- Whether the first list is an initial segment of the second; this is the
prefix test that `str::match_indices` performs at each candidate position. -/
def leadsWith : Str → Str → Bool
  | [], _ => true
  | _ :: _, [] => false
  | a :: ps, b :: ss => a == b && leadsWith ps ss

/-- Scanner for `str::match_indices` with the nonempty pattern `qh :: qt`:
positions are examined left to right; a match at position `i` is recorded and
the following `qt.length` positions are skipped (matches are
non-overlapping), which the `skip` counter implements. -/
def mAux (qh : Char) (qt : Str) : Str → Nat → Nat → List Nat
  | [], _, _ => []
  | c :: rest, i, skip =>
    match skip with
    | Nat.succ k => mAux qh qt rest (i + 1) k
    | 0 =>
      if leadsWith (qh :: qt) (c :: rest) then
        i :: mAux qh qt rest (i + 1) qt.length
      else
        mAux qh qt rest (i + 1) 0

/-- The list of match start positions produced by
`line.match_indices(query).map(|(index, _v)| index)` in `search`
(src/lib.rs:230-234).  As in Rust, the empty pattern matches at every
position `0, 1, ..., s.length`. -/
def matchIndices (q s : Str) : List Nat :=
  match q with
  | [] => List.range (s.length + 1)
  | qh :: qt => mAux qh qt s 0 0

/-- Split a character list at every newline character, keeping all pieces
(an empty input yields one empty piece). -/
def splitNl : Str → List Str
  | [] => [[]]
  | c :: rest =>
    if c = '\n' then [] :: splitNl rest
    else
      match splitNl rest with
      | [] => [[c]]
      | l :: ls => (c :: l) :: ls

/-- Remove one trailing carriage return, as `str::lines` does per line. -/
def stripCr (l : Str) : Str :=
  if l.getLast? = some '\x0d' then l.dropLast else l

/-- `str::lines`: split on newline characters; a trailing line terminator
does not produce a final empty line, and each line loses one trailing
carriage return. -/
def linesOf (s : Str) : List Str :=
  let ps := splitNl s
  let ps := if ps.getLast? = some [] then ps.dropLast else ps
  ps.map stripCr

/-- `search` (src/lib.rs:222-239): every line of `contents` is paired with
the match positions of `query` in it, keeping its 0-based line number, and
lines whose position list is empty are filtered out. -/
def search (query contents : Str) : List (List Nat × (Nat × Str)) :=
  (((linesOf contents).enum).map
    (fun p => (matchIndices query p.2, (p.1, p.2)))).filter
    (fun p => !p.1.isEmpty)

/-- Per-character lowercasing, modelling `str::to_lowercase`. -/
def toLowerStr (s : Str) : Str := s.map Char.toLower

/-- `search_case_insensitive` (src/lib.rs:257-277): like `search` but the
query and each line are lowercased before matching; the reported line text
stays in original case. -/
def search_case_insensitive (query contents : Str) :
    List (List Nat × (Nat × Str)) :=
  (((linesOf contents).enum).map
    (fun p => (matchIndices (toLowerStr query) (toLowerStr p.2), (p.1, p.2)))).filter
    (fun p => !p.1.isEmpty)

/-- The loop of `split_by_matches` (src/lib.rs:305-331) over the remaining
line text `ms`, the remaining indices, and the running offset `real_index`.
A chunk is a pair of a colour flag (`true` = red) and its text.  `none`
models a panic: `index - real_index` underflowing, `split_at` past the end
of the text, or `rest[..query_len]` past the end of `rest`.  After the loop
the remaining text is always pushed as a normal chunk, and an empty
`pre_match` is not pushed. -/
def sbmGo (qlen : Nat) : Str → List Nat → Nat → Option (List (Bool × Str))
  | ms, [], _ => some [(false, ms)]
  | ms, i :: rest, real =>
    if i < real then none
    else if i - real ≤ ms.length then
      if qlen ≤ (ms.drop (i - real)).length then
        (sbmGo qlen ((ms.drop (i - real)).drop qlen) rest (real + (i - real) + qlen)).map
          (fun out =>
            (if (ms.take (i - real)).isEmpty then [] else [(false, ms.take (i - real))]) ++
              (true, (ms.drop (i - real)).take qlen) :: out)
      else none
    else none

/-- `split_by_matches` (src/lib.rs:305-331). -/
def split_by_matches (line : Str) (indices : List Nat) (qlen : Nat) :
    Option (List (Bool × Str)) :=
  sbmGo qlen line indices 0

/-- Concatenation of the text of a chunk list. -/
def chunksText : List (Bool × Str) → Str
  | [] => []
  | c :: rest => c.2 ++ chunksText rest

/-- The (start, length) spans of the red chunks of a chunk list, measured
inside its concatenation, starting at offset `pos`. -/
def redSpansAux : List (Bool × Str) → Nat → List (Nat × Nat)
  | [], _ => []
  | c :: rest, pos =>
    if c.1 then (pos, c.2.length) :: redSpansAux rest (pos + c.2.length)
    else redSpansAux rest (pos + c.2.length)

/-- The (start, length) spans of the red chunks of a chunk list. -/
def redSpans (cs : List (Bool × Str)) : List (Nat × Nat) := redSpansAux cs 0

/-- `str::strip_prefix`: `some` of the remainder when the first list leads
the second, otherwise `none`. -/
def dropLead (pre s : Str) : Option Str :=
  if leadsWith pre s then some (s.drop pre.length) else none

/-- Outcome of `run` (src/lib.rs:89-116). -/
inductive RunOut where
  | errored
  | silent
  | panicked
  | printed (displayName : Str)
deriving DecidableEq, Repr

/-- `run` (src/lib.rs:89-116) on a file whose text is `contents` (`none`
when `fs::read_to_string` fails, which the `?` operator turns into an error
return).  With a nonempty result list the display name is computed by
`path.strip_prefix(original_path)` followed by `.unwrap()`, so a failing
strip is a panic; otherwise nothing is printed. -/
def run (query : Str) (ignore_case : Bool) (file_path original_path : Str)
    (contents : Option Str) : RunOut :=
  match contents with
  | none => RunOut.errored
  | some text =>
    let results :=
      if ignore_case then search_case_insensitive query text else search query text
    if results.isEmpty then RunOut.silent
    else
      match dropLead original_path file_path with
      | none => RunOut.panicked
      | some rest => RunOut.printed rest

/-!
## Directory walker model

`run_dir` (src/lib.rs:167-204) and `run_dir_with_git` (src/lib.rs:121-162)
change the process working directory to `config.file_path`, read the
directory at `env::current_dir()` (an absolute path), and loop over its
entries.  The working directory is modelled as its list of path components;
`env::current_dir()` is absolute and fully resolved, `DirEntry::path()` is
the enumerated directory joined with the entry name, and
`env::set_current_dir("../")` drops the last component.  A directory entry
carries whether its name is valid UTF-8 (`path.to_str()`/`file_name()`
succeed) and whether `fs::metadata(&path)` succeeds; an `err` entry models
the iterator itself yielding `Err`.  The successful restoration of the
cursor after each recursive call keeps the enumerated directory of a loop
equal to the `cwd` parameter, so the cursor is threaded as a parameter.
-/

/-- A path value as stored in `Config::file_path`: absolute or relative,
as its list of components. -/
inductive RPath where
  | abs (comps : List Str) : RPath
  | rel (comps : List Str) : RPath
deriving DecidableEq, Repr

/-- One step of operating-system path resolution: `""` and `"."` leave the
directory unchanged and `".."` moves to the parent. -/
def resolveComp (cwd : List Str) (c : Str) : List Str :=
  if c.isEmpty then cwd
  else if c = ['.'] then cwd
  else if c = ['.', '.'] then cwd.dropLast
  else cwd ++ [c]

/-- `env::set_current_dir(p)` from working directory `cwd`: an absolute
path is resolved from the root, a relative one against `cwd`. -/
def resolveR (cwd : List Str) : RPath → List Str
  | RPath.abs cs => cs.foldl resolveComp []
  | RPath.rel cs => cs.foldl resolveComp cwd

/-- How a walker call ends: normal return, an `Err` propagated by `?`
(for example a failing `fs::metadata`), or a panic
(`file_name().to_str().unwrap()` on a non-UTF-8 name). -/
inductive WR where
  | ok
  | ioErr
  | panicked
deriving DecidableEq, Repr

/-- Observable outcome of a walker call: the job paths submitted to the
pool in order, the entry paths that passed the filters (recursed into or
submitted), the paths on which `Repository::is_path_ignored` was consulted,
the number of diagnostics written to standard error, and how the call
ended. -/
structure WRes where
  jobs : List RPath
  visited : List (List Str)
  gitCalls : List (List Str)
  diag : Nat
  res : WR
deriving DecidableEq, Repr

/-- `filename.starts_with(".")`: whether a name begins with the
hidden-file marker. -/
def startsDot : Str → Bool
  | [] => false
  | c :: _ => c == '.'

/-- Sequencing of the per-entry loop: outputs accumulate and the second
result decides how the loop ends (used only when the first part returned
normally). -/
def wseq (a b : WRes) : WRes :=
  ⟨a.jobs ++ b.jobs, a.visited ++ b.visited, a.gitCalls ++ b.gitCalls,
    a.diag + b.diag, b.res⟩

mutual
/-- A directory entry as yielded by `fs::read_dir`: an iterator error, a
file, or a subdirectory, with flags for a UTF-8 name and a successful
`fs::metadata`. -/
inductive Entry where
  | err : Entry
  | file (name : Str) (utf8 : Bool) (mdOk : Bool) : Entry
  | dir (name : Str) (utf8 : Bool) (mdOk : Bool) (sub : Forest) : Entry
/-- The entry list of one directory. -/
inductive Forest where
  | nil : Forest
  | fcons (e : Entry) (rest : Forest) : Forest
end

mutual
/-- One iteration of the entry loop of `run_dir` (src/lib.rs:171-200):
an `Err` entry is reported and skipped; otherwise `fs::metadata(&path)?`
may abort, a non-UTF-8 name is reported (`path error`) and then panics at
`file_name().to_str().unwrap()`, and an entry whose name starts with `"."`
is skipped unless `hidden_files` is set; a surviving directory is recursed
into (with the cursor restored afterwards) and a surviving file is
submitted to the pool with `file_path` rebound to the entry path. -/
def runDirStep (hidden : Bool) (cwd : List Str) : Entry → WRes
  | Entry.err => ⟨[], [], [], 1, WR.ok⟩
  | Entry.file name utf8 mdOk =>
    if !mdOk then ⟨[], [], [], 0, WR.ioErr⟩
    else if !utf8 then ⟨[], [], [], 1, WR.panicked⟩
    else if hidden || !(startsDot name) then
      ⟨[RPath.abs (cwd ++ [name])], [cwd ++ [name]], [], 0, WR.ok⟩
    else ⟨[], [], [], 0, WR.ok⟩
  | Entry.dir name utf8 mdOk sub =>
    if !mdOk then ⟨[], [], [], 0, WR.ioErr⟩
    else if !utf8 then ⟨[], [], [], 1, WR.panicked⟩
    else if hidden || !(startsDot name) then
      let rc := run_dir hidden (cwd ++ [name]) sub
      ⟨rc.jobs, (cwd ++ [name]) :: rc.visited, rc.gitCalls, rc.diag, rc.res⟩
    else ⟨[], [], [], 0, WR.ok⟩

/-- The entry loop of `run_dir` (src/lib.rs:167-204) over the entries of
the directory `cwd`; an entry that ends in an error or panic stops the
loop there. -/
def run_dir (hidden : Bool) (cwd : List Str) : Forest → WRes
  | Forest.nil => ⟨[], [], [], 0, WR.ok⟩
  | Forest.fcons e rest =>
    let r := runDirStep hidden cwd e
    if r.res = WR.ok then wseq r (run_dir hidden cwd rest) else r
end

mutual
/-- One iteration of the entry loop of `run_dir_with_git`
(src/lib.rs:125-158): identical to `runDirStep` except that
`git_repo.is_path_ignored(&path)?` is consulted first (before
`fs::metadata`) and an ignored entry is skipped entirely. -/
def runDirGitStep (g : List Str → Bool) (hidden : Bool)
    (cwd : List Str) : Entry → WRes
  | Entry.err => ⟨[], [], [], 1, WR.ok⟩
  | Entry.file name utf8 mdOk =>
    if g (cwd ++ [name]) then ⟨[], [], [cwd ++ [name]], 0, WR.ok⟩
    else if !mdOk then ⟨[], [], [cwd ++ [name]], 0, WR.ioErr⟩
    else if !utf8 then ⟨[], [], [cwd ++ [name]], 1, WR.panicked⟩
    else if hidden || !(startsDot name) then
      ⟨[RPath.abs (cwd ++ [name])], [cwd ++ [name]], [cwd ++ [name]], 0, WR.ok⟩
    else ⟨[], [], [cwd ++ [name]], 0, WR.ok⟩
  | Entry.dir name utf8 mdOk sub =>
    if g (cwd ++ [name]) then ⟨[], [], [cwd ++ [name]], 0, WR.ok⟩
    else if !mdOk then ⟨[], [], [cwd ++ [name]], 0, WR.ioErr⟩
    else if !utf8 then ⟨[], [], [cwd ++ [name]], 1, WR.panicked⟩
    else if hidden || !(startsDot name) then
      let rc := run_dir_with_git g hidden (cwd ++ [name]) sub
      ⟨rc.jobs, (cwd ++ [name]) :: rc.visited,
        (cwd ++ [name]) :: rc.gitCalls, rc.diag, rc.res⟩
    else ⟨[], [], [cwd ++ [name]], 0, WR.ok⟩

/-- The entry loop of `run_dir_with_git` (src/lib.rs:121-162), with the
ignore evaluator `g` standing for `git_repo.is_path_ignored` (modelled
total: its own error channel is not exercised). -/
def run_dir_with_git (g : List Str → Bool) (hidden : Bool)
    (cwd : List Str) : Forest → WRes
  | Forest.nil => ⟨[], [], [], 0, WR.ok⟩
  | Forest.fcons e rest =>
    let r := runDirGitStep g hidden cwd e
    if r.res = WR.ok then wseq r (run_dir_with_git g hidden cwd rest) else r
end

/-- `run_dir` including its initial `env::set_current_dir(config.file_path)`
from the process working directory `cwd0`; `es` is the entry list of the
directory that `file_path` denotes. -/
def run_dir_top (hidden : Bool) (fp : RPath) (cwd0 : List Str)
    (es : Forest) : WRes :=
  run_dir hidden (resolveR cwd0 fp) es

/-- `run_dir_with_git` including its initial `env::set_current_dir`. -/
def run_dir_with_git_top (g : List Str → Bool) (hidden : Bool)
    (fp : RPath) (cwd0 : List Str) (es : Forest) : WRes :=
  run_dir_with_git g hidden (resolveR cwd0 fp) es

/-- The directory dispatch of `main` (src/main.rs:75-91): with `force_git`
set the walk uses `run_dir` and no repository is even opened; otherwise it
uses `run_dir_with_git`. -/
def mainWalk (force_git : Bool) (g : List Str → Bool) (hidden : Bool)
    (fp : RPath) (cwd0 : List Str) (es : Forest) : WRes :=
  if force_git then run_dir_top hidden fp cwd0 es
  else run_dir_with_git_top g hidden fp cwd0 es

/-- A path component that is a real name: nonempty and neither `"."` nor
`".."` (what `read_dir` yields and what an absolute resolved directory
consists of). -/
def cleanComp (c : Str) : Bool := !(c.isEmpty || c == ['.'] || c == ['.', '.'])

/-- All components of a path are real names. -/
def cleanL (cs : List Str) : Bool := cs.all cleanComp

mutual
/-- Every name in an entry (recursively) is a real name. -/
def cleanE : Entry → Bool
  | Entry.err => true
  | Entry.file name _ _ => cleanComp name
  | Entry.dir name _ _ sub => cleanComp name && cleanF sub
/-- Every name in a directory tree is a real name. -/
def cleanF : Forest → Bool
  | Forest.nil => true
  | Forest.fcons e rest => cleanE e && cleanF rest
end

/-- A readable, cleanly named entry: a file when `c = none`, otherwise a
directory with entry list `c`. -/
def entryOf (name : Str) : Option Forest → Entry
  | none => Entry.file name true true
  | some f => Entry.dir name true true f

/-!
## Thread pool model

`ThreadPool` (src/thread_pool.rs) is modelled as a labelled transition
system.  A state holds the queue contents (job ids, FIFO), whether the
`Sender` has been dropped (`ThreadPool::drop` line 70), the status of each
worker thread, and the ids of jobs received so far, in reception order.
The `Mutex` around the `Receiver` makes each reception atomic, so a `recv`
step removes exactly one job from the head of the queue.  A job either
returns normally, returns an `Err` that the closure body discards
(`let _ = run(&new_config)`, src/lib.rs:153), or panics; a panicking job
unwinds its worker thread (there is no `catch_unwind` in `Worker::new`,
src/thread_pool.rs:86-100), which `thread.join().unwrap_or(())` in `drop`
then ignores.
-/

/-- How a job body behaves when executed. -/
inductive JobSpec where
  | ok
  | errResult
  | panics
deriving DecidableEq, Repr

/-- Status of one worker thread. -/
inductive WStat where
  | running
  | dead
  | finished
deriving DecidableEq, Repr

/-- State of the pool: queued job ids, whether the sender was dropped,
worker statuses, and executed job ids in reception order. -/
structure PState where
  pending : List Nat
  closed : Bool
  workers : List WStat
  executed : List Nat
deriving DecidableEq, Repr

/-- Status of a worker after running job `j`: a panicking job kills the
thread, any other job leaves the receive loop running. -/
def jobStat (js : List JobSpec) (j : Nat) : WStat :=
  if js[j]? = some JobSpec.panics then WStat.dead else WStat.running

/-- Pool of `n` workers with the jobs `0, ..., js.length - 1` already
submitted, before disposal begins. -/
def initState (js : List JobSpec) (n : Nat) : PState :=
  ⟨List.range js.length, false, List.replicate n WStat.running, []⟩

/-- One transition of the pool: a running worker receives and runs the
job at the head of the queue (`Ok(job) => job()`), the pool drops the
sender (`drop(self.sender.take())`), or a running worker observes the
closed and drained channel and leaves its loop (`Err(_) => break`). -/
inductive Step (js : List JobSpec) : PState → PState → Prop
  | recv (s : PState) (w j : Nat) (rest : List Nat)
      (hw : s.workers[w]? = some WStat.running)
      (hp : s.pending = j :: rest) :
      Step js s ⟨rest, s.closed, s.workers.set w (jobStat js j), s.executed ++ [j]⟩
  | close (s : PState) (hc : s.closed = false) :
      Step js s ⟨s.pending, true, s.workers, s.executed⟩
  | exit (s : PState) (w : Nat)
      (hw : s.workers[w]? = some WStat.running)
      (hc : s.closed = true)
      (hp : s.pending = []) :
      Step js s ⟨[], true, s.workers.set w WStat.finished, s.executed⟩

/-- Reachability in the pool transition system. -/
def Reach (js : List JobSpec) : PState → PState → Prop :=
  Relation.ReflTransGen (Step js)

/-- Disposal (`ThreadPool::drop`, src/thread_pool.rs:68-78) has completed:
the sender is dropped and every worker thread has been joined, so none is
still running. -/
def DisposalComplete (s : PState) : Prop :=
  s.closed = true ∧ WStat.running ∉ s.workers

/-- `ThreadPool::execute` (src/thread_pool.rs:57-65): `send` succeeds while
any worker thread (hence a clone of the `Receiver`'s `Arc`) is still alive
and then enqueues the job; once every worker has exited, `send` returns
`Err` and `unwrap_or_default()` silently discards it.  The function is
total: submission never blocks, errors, or panics. -/
def poolExecute (s : PState) (j : Nat) : PState :=
  if WStat.running ∈ s.workers then { s with pending := s.pending ++ [j] } else s

/-- The well-formedness that `search` guarantees for an index list handed
to `split_by_matches`: starting from lower bound `lo`, the indices are
ordered, consecutive matches do not overlap (each next index is at least
`qlen` past the previous one), and every match fits inside a line of
length `len`. -/
def MatchChain (qlen len : Nat) : Nat → List Nat → Prop
  | _, [] => True
  | lo, i :: rest => lo ≤ i ∧ i + qlen ≤ len ∧ MatchChain qlen len (i + qlen) rest

/-- Invariant of the pool transition system: the received and queued job
ids together are exactly the submitted ones in order, the worker count is
fixed, a finished worker only ever appears once the queue is empty (and the
queue can never refill), and without panicking jobs no worker dies. -/
def PoolInv (js : List JobSpec) (n : Nat) (s : PState) : Prop :=
  s.executed ++ s.pending = List.range js.length ∧
  s.workers.length = n ∧
  (WStat.finished ∈ s.workers → s.pending = []) ∧
  (JobSpec.panics ∉ js → WStat.dead ∉ s.workers)

/-!
## Helper lemmas
-/

theorem listMemOfGet {α : Type} {l : List α} {i : Nat} {a : α}
    (h : l[i]? = some a) : a ∈ l := by
  induction l generalizing i with
  | nil => simp at h
  | cons b t ih =>
    cases i with
    | zero => simp at h; simp [h]
    | succ k => simp at h; exact List.mem_cons_of_mem _ (ih h)

theorem listGetSetSelf {α : Type} {l : List α} {i : Nat} (a : α) {b : α}
    (h : l[i]? = some b) : (l.set i a)[i]? = some a := by
  induction l generalizing i with
  | nil => simp at h
  | cons c t ih =>
    cases i with
    | zero => simp
    | succ k => simp at h ⊢; exact ih h

theorem listMemSet {α : Type} {l : List α} {i : Nat} {b a : α}
    (h : a ∈ l.set i b) : a = b ∨ a ∈ l := by
  induction l generalizing i with
  | nil => simp at h
  | cons c t ih =>
    cases i with
    | zero =>
      rcases List.mem_cons.mp h with h1 | h1
      · exact Or.inl h1
      · exact Or.inr (List.mem_cons_of_mem _ h1)
    | succ k =>
      rcases List.mem_cons.mp h with h1 | h1
      · exact Or.inr (h1 ▸ List.mem_cons_self _ _)
      · rcases ih h1 with h2 | h2
        · exact Or.inl h2
        · exact Or.inr (List.mem_cons_of_mem _ h2)

theorem poolInv_init (js : List JobSpec) (n : Nat) :
    PoolInv js n (initState js n) := by
  refine ⟨by simp [initState], by simp [initState], ?_, ?_⟩
  · intro h
    have := List.eq_of_mem_replicate h
    simp at this
  · intro _ h
    have := List.eq_of_mem_replicate h
    simp at this

theorem poolInv_step {js : List JobSpec} {n : Nat} {s s' : PState}
    (hs : Step js s s') (hinv : PoolInv js n s) : PoolInv js n s' := by
  obtain ⟨h1, h2, h3, h4⟩ := hinv
  cases hs with
  | recv w j rest hw hp =>
    refine ⟨?_, by simpa using h2, ?_, ?_⟩
    · simpa [hp] using h1
    · intro hf
      rcases listMemSet hf with he | he
      · simp [jobStat] at he
        split at he <;> simp_all
      · have := h3 he
        rw [this] at hp
        simp at hp
    · intro hnp hd
      rcases listMemSet hd with he | he
      · simp [jobStat] at he
        split at he
        case isTrue hj =>
          exact hnp (listMemOfGet hj)
        case isFalse => simp_all
      · exact h4 hnp he
  | close hc =>
    exact ⟨h1, h2, h3, h4⟩
  | exit w hw hc hp =>
    refine ⟨by simpa [hp] using h1, by simpa using h2, fun _ => rfl, ?_⟩
    intro hnp hd
    rcases listMemSet hd with he | he
    · simp at he
    · exact h4 hnp he

theorem poolInv_reach {js : List JobSpec} {n : Nat} {s0 s : PState}
    (hr : Reach js s0 s) (h0 : PoolInv js n s0) : PoolInv js n s := by
  induction hr with
  | refl => exact h0
  | tail _ hstep ih => exact poolInv_step hstep ih

/-!
## Claims
-/

/-- C2 (counterexample): with one worker and the jobs `[panics, ok]`
submitted before disposal, the pool can reach a state where disposal is
complete (sender dropped, no worker running) although job 1 was never
executed: the panicking job killed the only worker and the queued job was
dropped. -/
theorem C2_panicking_job_drops_later_jobs :
    Reach [JobSpec.panics, JobSpec.ok]
        (initState [JobSpec.panics, JobSpec.ok] 1)
        ⟨[1], true, [WStat.dead], [0]⟩ ∧
      DisposalComplete (⟨[1], true, [WStat.dead], [0]⟩ : PState) ∧
      1 ∉ (⟨[1], true, [WStat.dead], [0]⟩ : PState).executed ∧
      1 ∈ List.range ([JobSpec.panics, JobSpec.ok].length) := by
  refine ⟨?_, by constructor <;> decide, by decide, by decide⟩
  have h1 : Step [JobSpec.panics, JobSpec.ok]
      (initState [JobSpec.panics, JobSpec.ok] 1)
      ⟨[0, 1], true, [WStat.running], []⟩ := by
    have := @Step.close [JobSpec.panics, JobSpec.ok]
      (initState [JobSpec.panics, JobSpec.ok] 1) (by decide)
    simpa [initState] using this
  have h2 : Step [JobSpec.panics, JobSpec.ok]
      (⟨[0, 1], true, [WStat.running], []⟩ : PState)
      ⟨[1], true, [WStat.dead], [0]⟩ := by
    have := @Step.recv [JobSpec.panics, JobSpec.ok]
      (⟨[0, 1], true, [WStat.running], []⟩ : PState) 0 0 [1]
      (by decide) (by decide)
    simpa [jobStat] using this
  exact Relation.ReflTransGen.head h1 (Relation.ReflTransGen.single h2)

/-- C2 (amended): for every worker count at least 1 and every finite job
sequence submitted before disposal begins, provided no submitted job
panics, any reachable state in which disposal has completed (sender
dropped, every worker joined) has executed exactly the submitted jobs,
each exactly once and in FIFO order, with an empty queue and every worker
exited normally. -/
theorem C2_no_panic_executes_all_once (js : List JobSpec) (n : Nat)
    (hn : 1 ≤ n) (hp : JobSpec.panics ∉ js) (s : PState)
    (hr : Reach js (initState js n) s) (hd : DisposalComplete s) :
    s.executed = List.range js.length ∧ s.pending = [] ∧
      ∀ w ∈ s.workers, w = WStat.finished := by
  obtain ⟨h1, h2, h3, h4⟩ := poolInv_reach hr (poolInv_init js n)
  have hdead := h4 hp
  have hall : ∀ w ∈ s.workers, w = WStat.finished := by
    intro w hw
    cases w with
    | running => exact absurd hw hd.2
    | dead => exact absurd hw hdead
    | finished => rfl
  have hne : s.workers ≠ [] := by
    intro h
    rw [h] at h2
    simp at h2
    omega
  obtain ⟨w, hw⟩ := List.exists_mem_of_ne_nil _ hne
  have hfin : WStat.finished ∈ s.workers := (hall w hw) ▸ hw
  have hpend := h3 hfin
  refine ⟨?_, hpend, hall⟩
  rw [hpend] at h1
  simpa using h1

/-- C2 witness: one worker, one normally-returning job; after receiving the
job, dropping the sender and joining, the executed list is exactly the
submitted job. -/
theorem C2_no_panic_executes_all_once_witness :
    (⟨[], true, [WStat.finished], [0]⟩ : PState).executed =
        List.range ([JobSpec.ok].length) ∧
      (⟨[], true, [WStat.finished], [0]⟩ : PState).pending = [] ∧
      ∀ w ∈ (⟨[], true, [WStat.finished], [0]⟩ : PState).workers,
        w = WStat.finished := by
  have hreach : Reach [JobSpec.ok] (initState [JobSpec.ok] 1)
      ⟨[], true, [WStat.finished], [0]⟩ := by
    have h1 : Step [JobSpec.ok] (initState [JobSpec.ok] 1)
        ⟨[], false, [WStat.running], [0]⟩ := by
      have := @Step.recv [JobSpec.ok] (initState [JobSpec.ok] 1) 0 0 []
        (by decide) (by decide)
      simpa [initState, jobStat] using this
    have h2 : Step [JobSpec.ok] (⟨[], false, [WStat.running], [0]⟩ : PState)
        ⟨[], true, [WStat.running], [0]⟩ := by
      have := @Step.close [JobSpec.ok]
        (⟨[], false, [WStat.running], [0]⟩ : PState) (by decide)
      simpa using this
    have h3 : Step [JobSpec.ok] (⟨[], true, [WStat.running], [0]⟩ : PState)
        ⟨[], true, [WStat.finished], [0]⟩ := by
      have := @Step.exit [JobSpec.ok]
        (⟨[], true, [WStat.running], [0]⟩ : PState) 0
        (by decide) (by decide) (by decide)
      simpa using this
    exact Relation.ReflTransGen.head h1
      (Relation.ReflTransGen.head h2 (Relation.ReflTransGen.single h3))
  exact C2_no_panic_executes_all_once [JobSpec.ok] 1 (by decide) (by decide)
    ⟨[], true, [WStat.finished], [0]⟩ hreach ⟨rfl, by decide⟩

/-- C5 (counterexample): a worker that runs a panicking job is terminated
by it: from the initial state with jobs `[panics, ok]` and one worker, the
reception of job 0 is a pool transition after which that worker's status
is `dead`, not `running`, so it cannot receive the next job. -/
theorem C5_panicking_job_kills_worker :
    Step [JobSpec.panics, JobSpec.ok]
        (initState [JobSpec.panics, JobSpec.ok] 1)
        ⟨[1], false, [WStat.dead], [0]⟩ ∧
      (⟨[1], false, [WStat.dead], [0]⟩ : PState).workers[0]? =
        some WStat.dead := by
  refine ⟨?_, by decide⟩
  have := @Step.recv [JobSpec.panics, JobSpec.ok]
    (initState [JobSpec.panics, JobSpec.ok] 1) 0 0 [1]
    (by decide) (by decide)
  simpa [initState, jobStat] using this

/-- C5 (amended): a job that does not panic — in particular one whose body
returns an `Err` that `let _ = run(&new_config)` discards — leaves its
worker running: the worker receives the job, the job is executed (appended
to the executed list), and the worker is again available to receive the
next job from the queue. -/
theorem C5_nonpanicking_job_keeps_worker (js : List JobSpec) (s : PState)
    (w j : Nat) (rest : List Nat)
    (hw : s.workers[w]? = some WStat.running)
    (hp : s.pending = j :: rest)
    (hj : ¬ js[j]? = some JobSpec.panics) :
    ∃ s2, Step js s s2 ∧ s2.workers[w]? = some WStat.running ∧
      s2.executed = s.executed ++ [j] ∧ s2.pending = rest := by
  refine ⟨_, Step.recv s w j rest hw hp, ?_, rfl, rfl⟩
  have hj2 : jobStat js j = WStat.running := by
    simp [jobStat]
    intro h
    exact absurd h hj
  simpa [hj2] using listGetSetSelf WStat.running hw

/-- C5 witness: a single worker receiving an `Err`-returning job stays
running with the job executed. -/
theorem C5_nonpanicking_job_keeps_worker_witness :
    ∃ s2, Step [JobSpec.errResult] (initState [JobSpec.errResult] 1) s2 ∧
      s2.workers[0]? = some WStat.running ∧
      s2.executed = (initState [JobSpec.errResult] 1).executed ++ [0] ∧
      s2.pending = [] :=
  C5_nonpanicking_job_keeps_worker [JobSpec.errResult]
    (initState [JobSpec.errResult] 1) 0 0 [] (by decide) (by decide) (by decide)

/-- C6 (counterexample): an entry whose metadata cannot be read (for
example one deleted between enumeration and `fs::metadata`) is not skipped:
`fs::metadata(&path)?` aborts the walk of the directory, nothing is
reported for it, and the remaining entries (here the readable file `b`)
are neither visited nor submitted. -/
theorem C6_metadata_error_aborts_walk :
    run_dir false [['r']]
        (Forest.fcons (Entry.file ['g', 'o', 'n', 'e'] true false)
          (Forest.fcons (Entry.file ['b'] true true) Forest.nil)) =
      ⟨[], [], [], 0, WR.ioErr⟩ := by
  simp [run_dir, runDirStep, wseq]

/-- C6 (amended): an `Err` yielded by the directory-entry iterator is
reported to the diagnostic stream and that single entry is skipped: both
walkers continue over the remaining entries exactly as without it, with
one more diagnostic. -/
theorem C6_iterator_error_reported_and_skipped (hidden : Bool)
    (cwd : List Str) (rest : Forest) (g : List Str → Bool) :
    run_dir hidden cwd (Forest.fcons Entry.err rest) =
      ⟨(run_dir hidden cwd rest).jobs, (run_dir hidden cwd rest).visited,
        (run_dir hidden cwd rest).gitCalls,
        (run_dir hidden cwd rest).diag + 1, (run_dir hidden cwd rest).res⟩ ∧
    run_dir_with_git g hidden cwd (Forest.fcons Entry.err rest) =
      ⟨(run_dir_with_git g hidden cwd rest).jobs,
        (run_dir_with_git g hidden cwd rest).visited,
        (run_dir_with_git g hidden cwd rest).gitCalls,
        (run_dir_with_git g hidden cwd rest).diag + 1,
        (run_dir_with_git g hidden cwd rest).res⟩ := by
  constructor
  · conv_lhs => rw [run_dir]
    simp [runDirStep, wseq, Nat.add_comm]
  · conv_lhs => rw [run_dir_with_git]
    simp [runDirGitStep, wseq, Nat.add_comm]

/-- C7: submitting a job once the channel is closed (every worker thread
has exited, so the `Receiver` is dropped and `send` returns `Err`) is
silently dropped by `unwrap_or_default()`: `execute` returns normally with
the pool state unchanged, without blocking, erroring, or panicking. -/
theorem C7_execute_after_shutdown_dropped (s : PState) (j : Nat)
    (h : WStat.running ∉ s.workers) : poolExecute s j = s := by
  simp [poolExecute, h]

/-- C7 witness: submitting to a pool whose single worker has exited leaves
the state unchanged. -/
theorem C7_execute_after_shutdown_dropped_witness :
    poolExecute ⟨[], true, [WStat.finished], [0]⟩ 5 =
      ⟨[], true, [WStat.finished], [0]⟩ :=
  C7_execute_after_shutdown_dropped ⟨[], true, [WStat.finished], [0]⟩ 5
    (by decide)

/-- C8: when the printed file path does not start with the original
invocation directory, `run` does not fall back to the absolute path: the
`Option` returned by `strip_prefix` is `unwrap`ped and the call panics.
Searching the relative path `a.txt` for `foo` from working directory
`/home/user`, with file content `foo`, panics. -/
theorem C8_display_path_failure_panics :
    run (String.toList "foo") false (String.toList "a.txt")
      (String.toList "/home/user") (some (String.toList "foo")) =
      RunOut.panicked := by
  decide

/-- C3: for a readable entry (metadata and name resolution succeed), both
walkers skip it — no traversal, no job — exactly when its name begins with
`"."` and the hidden-files flag is off; the test is the same one
(`config.hidden_files || !filename.starts_with(".")`) whether the walk
runs with or without the ignore evaluator (i.e. whatever `force_git`
selected), and when the flag is on (or the name is not dotted) a file
entry is submitted as a job. -/
theorem C3_hidden_file_policy (hidden : Bool) (cwd : List Str) (name : Str)
    (c : Option Forest) (g : List Str → Bool)
    (hg : g (cwd ++ [name]) = false) :
    ((cwd ++ [name]) ∈ (runDirStep hidden cwd (entryOf name c)).visited ↔
      (hidden = true ∨ startsDot name = false)) ∧
    ((cwd ++ [name]) ∈ (runDirGitStep g hidden cwd (entryOf name c)).visited ↔
      (hidden = true ∨ startsDot name = false)) ∧
    (hidden = false → startsDot name = true →
      runDirStep hidden cwd (entryOf name c) = ⟨[], [], [], 0, WR.ok⟩ ∧
      runDirGitStep g hidden cwd (entryOf name c) =
        ⟨[], [], [cwd ++ [name]], 0, WR.ok⟩) ∧
    ((hidden = true ∨ startsDot name = false) → c = none →
      (runDirStep hidden cwd (entryOf name c)).jobs =
          [RPath.abs (cwd ++ [name])] ∧
        (runDirGitStep g hidden cwd (entryOf name c)).jobs =
          [RPath.abs (cwd ++ [name])]) := by
  cases c <;> cases hidden <;> cases hname : startsDot name <;>
    simp [entryOf, runDirStep, runDirGitStep, hg, hname]

/-- C3 witness: with the hidden-files flag off, the dotted file `.h` under
directory `r` is skipped by both walkers; with no ignore verdict the
policies coincide. -/
theorem C3_hidden_file_policy_witness :
    ((([['r']] : List Str) ++ [['.', 'h']]) ∈
        (runDirStep false [['r']] (entryOf ['.', 'h'] none)).visited ↔
      (false = true ∨ startsDot ['.', 'h'] = false)) ∧
    ((([['r']] : List Str) ++ [['.', 'h']]) ∈
        (runDirGitStep (fun _ => false) false [['r']]
          (entryOf ['.', 'h'] none)).visited ↔
      (false = true ∨ startsDot ['.', 'h'] = false)) ∧
    (false = false → startsDot ['.', 'h'] = true →
      runDirStep false [['r']] (entryOf ['.', 'h'] none) =
          ⟨[], [], [], 0, WR.ok⟩ ∧
        runDirGitStep (fun _ => false) false [['r']]
            (entryOf ['.', 'h'] none) =
          ⟨[], [], [(([['r']] : List Str) ++ [['.', 'h']])], 0, WR.ok⟩) ∧
    ((false = true ∨ startsDot ['.', 'h'] = false) →
        (none : Option Forest) = none →
      (runDirStep false [['r']] (entryOf ['.', 'h'] none)).jobs =
          [RPath.abs (([['r']] : List Str) ++ [['.', 'h']])] ∧
        (runDirGitStep (fun _ => false) false [['r']]
            (entryOf ['.', 'h'] none)).jobs =
          [RPath.abs (([['r']] : List Str) ++ [['.', 'h']])]) := by
  have h := C3_hidden_file_policy false [['r']] ['.', 'h'] none
    (fun _ => false) rfl
  simpa using h

mutual
theorem gitStepRespectsIgnore (g : List Str → Bool) (hidden : Bool)
    (cwd : List Str) (e : Entry) :
    (∀ v ∈ (runDirGitStep g hidden cwd e).visited, g v = false) ∧
    (∀ p ∈ (runDirGitStep g hidden cwd e).jobs,
      ∃ cs, p = RPath.abs cs ∧ g cs = false) := by
  cases e with
  | err => simp [runDirGitStep]
  | file name u m =>
    cases hg : g (cwd ++ [name]) with
    | true => simp [runDirGitStep, hg]
    | false =>
      cases m with
      | false => simp [runDirGitStep, hg]
      | true =>
        cases u with
        | false => simp [runDirGitStep, hg]
        | true =>
          cases hh : (hidden || !(startsDot name)) with
          | false => simp [runDirGitStep, hg, hh]
          | true => simp [runDirGitStep, hg, hh]
  | dir name u m sub =>
    cases hg : g (cwd ++ [name]) with
    | true => simp [runDirGitStep, hg]
    | false =>
      cases m with
      | false => simp [runDirGitStep, hg]
      | true =>
        cases u with
        | false => simp [runDirGitStep, hg]
        | true =>
          cases hh : (hidden || !(startsDot name)) with
          | false => simp [runDirGitStep, hg, hh]
          | true =>
            have ih := gitWalkRespectsIgnore g hidden (cwd ++ [name]) sub
            constructor
            · intro v hv
              simp [runDirGitStep, hg, hh] at hv
              rcases hv with hv | hv
              · rw [hv]; exact hg
              · exact ih.1 v hv
            · intro p hp
              simp [runDirGitStep, hg, hh] at hp
              exact ih.2 p hp

theorem gitWalkRespectsIgnore (g : List Str → Bool) (hidden : Bool)
    (cwd : List Str) (es : Forest) :
    (∀ v ∈ (run_dir_with_git g hidden cwd es).visited, g v = false) ∧
    (∀ p ∈ (run_dir_with_git g hidden cwd es).jobs,
      ∃ cs, p = RPath.abs cs ∧ g cs = false) := by
  cases es with
  | nil => simp [run_dir_with_git]
  | fcons e rest =>
    have ihe := gitStepRespectsIgnore g hidden cwd e
    have ihr := gitWalkRespectsIgnore g hidden cwd rest
    by_cases hres : (runDirGitStep g hidden cwd e).res = WR.ok
    · constructor
      · intro v hv
        simp [run_dir_with_git, hres, wseq] at hv
        rcases hv with hv | hv
        · exact ihe.1 v hv
        · exact ihr.1 v hv
      · intro p hp
        simp [run_dir_with_git, hres, wseq] at hp
        rcases hp with hp | hp
        · exact ihe.2 p hp
        · exact ihr.2 p hp
    · constructor
      · intro v hv
        simp [run_dir_with_git, hres] at hv
        exact ihe.1 v hv
      · intro p hp
        simp [run_dir_with_git, hres] at hp
        exact ihe.2 p hp
end

mutual
theorem runDirStepNoGit (hidden : Bool) (cwd : List Str) (e : Entry) :
    (runDirStep hidden cwd e).gitCalls = [] := by
  cases e with
  | err => simp [runDirStep]
  | file name u m =>
    cases m <;> cases u <;>
      cases hh : (hidden || !(startsDot name)) <;> simp [runDirStep, hh]
  | dir name u m sub =>
    cases m with
    | false => simp [runDirStep]
    | true =>
      cases u with
      | false => simp [runDirStep]
      | true =>
        cases hh : (hidden || !(startsDot name)) with
        | false => simp [runDirStep, hh]
        | true =>
          simp [runDirStep, hh]
          exact runDirNoGit hidden (cwd ++ [name]) sub

theorem runDirNoGit (hidden : Bool) (cwd : List Str) (es : Forest) :
    (run_dir hidden cwd es).gitCalls = [] := by
  cases es with
  | nil => simp [run_dir]
  | fcons e rest =>
    by_cases hres : (runDirStep hidden cwd e).res = WR.ok
    · simp [run_dir, hres, wseq, runDirStepNoGit hidden cwd e,
        runDirNoGit hidden cwd rest]
    · simp [run_dir, hres, runDirStepNoGit hidden cwd e]
end

/-- C4: when the walk runs with the ignore evaluator (`force_git` off),
every path it traverses into or submits a job for was reported not-ignored,
and an entry the evaluator reports as ignored contributes nothing — no
recursion, no job, only the consultation itself — whatever kind of entry it
is; when `force_git` is set, `main` dispatches to `run_dir`, whose result
is the same for any two evaluators and performs no consultation at all, so
otherwise-ignored entries are included subject only to the hidden-file
filter. -/
theorem C4_ignore_rule_policy (g g2 : List Str → Bool) (hidden : Bool)
    (cwd cwd0 : List Str) (fp : RPath) (es : Forest) (name : Str)
    (u m : Bool) (sub : Forest) :
    (∀ v ∈ (run_dir_with_git g hidden cwd es).visited, g v = false) ∧
    (∀ p ∈ (run_dir_with_git g hidden cwd es).jobs,
      ∃ cs, p = RPath.abs cs ∧ g cs = false) ∧
    (g (cwd ++ [name]) = true →
      runDirGitStep g hidden cwd (Entry.file name u m) =
          ⟨[], [], [cwd ++ [name]], 0, WR.ok⟩ ∧
        runDirGitStep g hidden cwd (Entry.dir name u m sub) =
          ⟨[], [], [cwd ++ [name]], 0, WR.ok⟩) ∧
    mainWalk true g hidden fp cwd0 es = mainWalk true g2 hidden fp cwd0 es ∧
    (mainWalk true g hidden fp cwd0 es).gitCalls = [] := by
  refine ⟨(gitWalkRespectsIgnore g hidden cwd es).1,
    (gitWalkRespectsIgnore g hidden cwd es).2, ?_, by simp [mainWalk], ?_⟩
  · intro hg
    constructor <;> simp [runDirGitStep, hg]
  · simp [mainWalk, run_dir_top]
    exact runDirNoGit hidden (resolveR cwd0 fp) es

/-- C4 witness: under directory `r` with entries `a` and `i` and an
evaluator ignoring exactly `r/i`, the visited path `r/a` is not ignored,
and the ignored file `i` contributes only its consultation. -/
theorem C4_ignore_rule_policy_witness :
    (fun cs => cs == [['r'], ['i']]) [['r'], ['a']] = false ∧
    runDirGitStep (fun cs => cs == [['r'], ['i']]) false [['r']]
        (Entry.file ['i'] true true) =
      ⟨[], [], [[['r'], ['i']]], 0, WR.ok⟩ := by
  constructor
  · refine (C4_ignore_rule_policy (fun cs => cs == [['r'], ['i']])
      (fun _ => false) false [['r']] [] (RPath.rel [])
      (Forest.fcons (Entry.file ['a'] true true)
        (Forest.fcons (Entry.file ['i'] true true) Forest.nil))
      ['a'] true true Forest.nil).1 [['r'], ['a']] ?_
    simp [run_dir_with_git, runDirGitStep, wseq, startsDot]
  · exact ((C4_ignore_rule_policy (fun cs => cs == [['r'], ['i']])
      (fun _ => false) false [['r']] [] (RPath.rel []) Forest.nil
      ['i'] true true Forest.nil).2.2.1 (by decide)).1

theorem cleanL_append {cs : List Str} {n : Str} (hc : cleanL cs = true)
    (hn : cleanComp n = true) : cleanL (cs ++ [n]) = true := by
  simp [cleanL] at hc ⊢
  exact ⟨hc, hn⟩

theorem cleanL_dropLast {cs : List Str} (hc : cleanL cs = true) :
    cleanL cs.dropLast = true := by
  simp [cleanL, List.all_eq_true] at hc ⊢
  intro x hx
  exact hc x (List.dropLast_subset _ hx)

theorem resolveFold_clean (cs : List Str) (cwd : List Str)
    (hc : cleanL cwd = true) : cleanL (cs.foldl resolveComp cwd) = true := by
  induction cs generalizing cwd with
  | nil => exact hc
  | cons c cs ih =>
    rw [List.foldl_cons]
    refine ih _ ?_
    by_cases h1 : c.isEmpty
    · simpa [resolveComp, h1] using hc
    · by_cases h2 : c = ['.']
      · simpa [resolveComp, h1, h2] using hc
      · by_cases h3 : c = ['.', '.']
        · simp [resolveComp, h1, h2, h3]
          exact cleanL_dropLast hc
        · simp [resolveComp, h1, h2, h3]
          refine cleanL_append hc ?_
          simp [cleanComp, h1, h2, h3]

theorem resolveR_clean (cwd : List Str) (fp : RPath)
    (hc : cleanL cwd = true) : cleanL (resolveR cwd fp) = true := by
  cases fp with
  | abs cs => exact resolveFold_clean cs [] rfl
  | rel cs => exact resolveFold_clean cs cwd hc

mutual
theorem runDirStepJobsClean (hidden : Bool) (cwd : List Str) (e : Entry)
    (hc : cleanL cwd = true) (he : cleanE e = true) :
    ∀ p ∈ (runDirStep hidden cwd e).jobs,
      ∃ d n, p = RPath.abs (d ++ [n]) ∧ cleanL (d ++ [n]) = true := by
  cases e with
  | err => simp [runDirStep]
  | file name u m =>
    cases m with
    | false => simp [runDirStep]
    | true =>
      cases u with
      | false => simp [runDirStep]
      | true =>
        cases hh : (hidden || !(startsDot name)) with
        | false => simp [runDirStep, hh]
        | true =>
          intro p hp
          simp [runDirStep, hh] at hp
          simp [cleanE] at he
          exact ⟨cwd, name, hp, cleanL_append hc he⟩
  | dir name u m sub =>
    cases m with
    | false => simp [runDirStep]
    | true =>
      cases u with
      | false => simp [runDirStep]
      | true =>
        cases hh : (hidden || !(startsDot name)) with
        | false => simp [runDirStep, hh]
        | true =>
          intro p hp
          simp [runDirStep, hh] at hp
          simp [cleanE] at he
          exact runDirJobsClean hidden (cwd ++ [name]) sub
            (cleanL_append hc he.1) he.2 p hp

theorem runDirJobsClean (hidden : Bool) (cwd : List Str) (es : Forest)
    (hc : cleanL cwd = true) (he : cleanF es = true) :
    ∀ p ∈ (run_dir hidden cwd es).jobs,
      ∃ d n, p = RPath.abs (d ++ [n]) ∧ cleanL (d ++ [n]) = true := by
  cases es with
  | nil => simp [run_dir]
  | fcons e rest =>
    simp [cleanF] at he
    intro p hp
    by_cases hres : (runDirStep hidden cwd e).res = WR.ok
    · simp [run_dir, hres, wseq] at hp
      rcases hp with hp | hp
      · exact runDirStepJobsClean hidden cwd e hc he.1 p hp
      · exact runDirJobsClean hidden cwd rest hc he.2 p hp
    · simp [run_dir, hres] at hp
      exact runDirStepJobsClean hidden cwd e hc he.1 p hp
end

mutual
theorem gitStepJobsClean (g : List Str → Bool) (hidden : Bool)
    (cwd : List Str) (e : Entry)
    (hc : cleanL cwd = true) (he : cleanE e = true) :
    ∀ p ∈ (runDirGitStep g hidden cwd e).jobs,
      ∃ d n, p = RPath.abs (d ++ [n]) ∧ cleanL (d ++ [n]) = true := by
  cases e with
  | err => simp [runDirGitStep]
  | file name u m =>
    cases hg : g (cwd ++ [name]) with
    | true => simp [runDirGitStep, hg]
    | false =>
      cases m with
      | false => simp [runDirGitStep, hg]
      | true =>
        cases u with
        | false => simp [runDirGitStep, hg]
        | true =>
          cases hh : (hidden || !(startsDot name)) with
          | false => simp [runDirGitStep, hg, hh]
          | true =>
            intro p hp
            simp [runDirGitStep, hg, hh] at hp
            simp [cleanE] at he
            exact ⟨cwd, name, hp, cleanL_append hc he⟩
  | dir name u m sub =>
    cases hg : g (cwd ++ [name]) with
    | true => simp [runDirGitStep, hg]
    | false =>
      cases m with
      | false => simp [runDirGitStep, hg]
      | true =>
        cases u with
        | false => simp [runDirGitStep, hg]
        | true =>
          cases hh : (hidden || !(startsDot name)) with
          | false => simp [runDirGitStep, hg, hh]
          | true =>
            intro p hp
            simp [runDirGitStep, hg, hh] at hp
            simp [cleanE] at he
            exact gitWalkJobsClean g hidden (cwd ++ [name]) sub
              (cleanL_append hc he.1) he.2 p hp

theorem gitWalkJobsClean (g : List Str → Bool) (hidden : Bool)
    (cwd : List Str) (es : Forest)
    (hc : cleanL cwd = true) (he : cleanF es = true) :
    ∀ p ∈ (run_dir_with_git g hidden cwd es).jobs,
      ∃ d n, p = RPath.abs (d ++ [n]) ∧ cleanL (d ++ [n]) = true := by
  cases es with
  | nil => simp [run_dir_with_git]
  | fcons e rest =>
    simp [cleanF] at he
    intro p hp
    by_cases hres : (runDirGitStep g hidden cwd e).res = WR.ok
    · simp [run_dir_with_git, hres, wseq] at hp
      rcases hp with hp | hp
      · exact gitStepJobsClean g hidden cwd e hc he.1 p hp
      · exact gitWalkJobsClean g hidden cwd rest hc he.2 p hp
    · simp [run_dir_with_git, hres] at hp
      exact gitStepJobsClean g hidden cwd e hc he.1 p hp
end

/-- C1: starting either walker from a fully resolved process working
directory (as `env::current_dir` returns) over a tree of real entry names
(as `read_dir` yields), every job ever submitted to the pool captures in
its configuration an absolute path — the directory being enumerated at
submission time joined with the entry name — all of whose components are
real names (no `.`, `..` or empty component), and resolving that captured
path is independent of whatever the working-directory cursor is when a
worker later runs the job. -/
theorem C1_jobs_capture_absolute_paths (hidden : Bool) (fp : RPath)
    (cwd0 : List Str) (es : Forest) (g : List Str → Bool)
    (hc : cleanL cwd0 = true) (he : cleanF es = true) :
    (∀ p ∈ (run_dir_top hidden fp cwd0 es).jobs,
      ∃ d n, p = RPath.abs (d ++ [n]) ∧ cleanL (d ++ [n]) = true ∧
        ∀ c1 c2, resolveR c1 p = resolveR c2 p) ∧
    (∀ p ∈ (run_dir_with_git_top g hidden fp cwd0 es).jobs,
      ∃ d n, p = RPath.abs (d ++ [n]) ∧ cleanL (d ++ [n]) = true ∧
        ∀ c1 c2, resolveR c1 p = resolveR c2 p) := by
  have hres := resolveR_clean cwd0 fp hc
  constructor
  · intro p hp
    obtain ⟨d, n, hpd, hcl⟩ :=
      runDirJobsClean hidden (resolveR cwd0 fp) es hres he p hp
    exact ⟨d, n, hpd, hcl, fun c1 c2 => by rw [hpd]; simp [resolveR]⟩
  · intro p hp
    obtain ⟨d, n, hpd, hcl⟩ :=
      gitWalkJobsClean g hidden (resolveR cwd0 fp) es hres he p hp
    exact ⟨d, n, hpd, hcl, fun c1 c2 => by rw [hpd]; simp [resolveR]⟩

/-- C1 witness: walking the relative path `d` from `/base` over a tree
with the single file `a` submits the job for absolute path `/base/d/a`. -/
theorem C1_jobs_capture_absolute_paths_witness :
    ∃ d n, RPath.abs [['b'], ['d'], ['a']] = RPath.abs (d ++ [n]) ∧
      cleanL (d ++ [n]) = true ∧
      ∀ c1 c2, resolveR c1 (RPath.abs [['b'], ['d'], ['a']]) =
        resolveR c2 (RPath.abs [['b'], ['d'], ['a']]) := by
  refine (C1_jobs_capture_absolute_paths false (RPath.rel [['d']]) [['b']]
    (Forest.fcons (Entry.file ['a'] true true) Forest.nil) (fun _ => false)
    (by simp [cleanL, cleanComp]) (by simp [cleanF, cleanE, cleanComp])).1
    (RPath.abs [['b'], ['d'], ['a']]) ?_
  simp [run_dir_top, run_dir, runDirStep, wseq, resolveR, resolveComp,
    startsDot, cleanComp]

theorem leadsWith_length {p s : Str} (h : leadsWith p s = true) :
    p.length ≤ s.length := by
  induction p generalizing s with
  | nil => simp
  | cons a ps ih =>
    cases s with
    | nil => simp [leadsWith] at h
    | cons b ss =>
      simp [leadsWith] at h
      simpa using ih h.2

theorem matchChain_mono {qlen len lo lo' : Nat} {l : List Nat}
    (hlo : lo' ≤ lo) (h : MatchChain qlen len lo l) :
    MatchChain qlen len lo' l := by
  cases l with
  | nil => simp [MatchChain]
  | cons i rest =>
    simp [MatchChain] at h ⊢
    exact ⟨le_trans hlo h.1, h.2.1, h.2.2⟩

theorem mAux_chain (qh : Char) (qt : Str) :
    ∀ (s : Str) (i k : Nat),
      MatchChain (qt.length + 1) (i + s.length) (i + k) (mAux qh qt s i k) := by
  intro s
  induction s with
  | nil => intro i k; simp [mAux, MatchChain]
  | cons c rest ih =>
    intro i k
    cases k with
    | succ k2 =>
      have h := ih (i + 1) k2
      have heq : (i + 1) + rest.length = i + (c :: rest).length := by
        simp [List.length_cons]; omega
      have heq2 : (i + 1) + k2 = i + (k2 + 1) := by omega
      rw [heq, heq2] at h
      simpa [mAux] using h
    | zero =>
      by_cases hlw : leadsWith (qh :: qt) (c :: rest) = true
      · have h := ih (i + 1) qt.length
        have hlen := leadsWith_length hlw
        simp [List.length_cons] at hlen
        have heq : (i + 1) + rest.length = i + (c :: rest).length := by
          simp [List.length_cons]; omega
        have heq2 : (i + 1) + qt.length = i + (qt.length + 1) := by omega
        rw [heq, heq2] at h
        simp [mAux, hlw, MatchChain]
        refine ⟨by omega, h⟩
      · have h := ih (i + 1) 0
        have heq : (i + 1) + rest.length = i + (c :: rest).length := by
          simp [List.length_cons]; omega
        rw [heq] at h
        have h2 := matchChain_mono (by omega : i + 0 ≤ (i + 1) + 0) h
        simpa [mAux, hlw] using h2

theorem matchChain_range' (len : Nat) :
    ∀ (m k : Nat), k + m = len + 1 → MatchChain 0 len k (List.range' k m) := by
  intro m
  induction m with
  | zero => intro k hk; simp [List.range', MatchChain]
  | succ m2 ih =>
    intro k hk
    have : List.range' k (m2 + 1) = k :: List.range' (k + 1) m2 := by
      simp [List.range']
    rw [this]
    simp [MatchChain]
    refine ⟨by omega, ?_⟩
    exact matchChain_mono (by omega) (ih (k + 1) (by omega))

theorem matchIndices_chain (q line : Str) :
    MatchChain q.length line.length 0 (matchIndices q line) := by
  cases q with
  | nil =>
    rw [matchIndices, List.range_eq_range']
    simpa using matchChain_range' line.length (line.length + 1) 0 (by omega)
  | cons qh qt =>
    have h := mAux_chain qh qt line 0 0
    simpa [matchIndices, List.length_cons] using h

theorem chunksText_append (a b : List (Bool × Str)) :
    chunksText (a ++ b) = chunksText a ++ chunksText b := by
  induction a with
  | nil => simp [chunksText]
  | cons c rest ih => simp [chunksText, ih]

theorem sbmGo_spec (qlen : Nat) (line : Str) :
    ∀ (idxs : List Nat) (real : Nat),
      MatchChain qlen line.length real idxs →
      ∃ out, sbmGo qlen (line.drop real) idxs real = some out ∧
        chunksText out = line.drop real ∧
        redSpansAux out real = idxs.map (fun i => (i, qlen)) := by
  intro idxs
  induction idxs with
  | nil =>
    intro real _
    refine ⟨[(false, line.drop real)], rfl, by simp [chunksText], ?_⟩
    simp [redSpansAux]
  | cons i rest ih =>
    intro real hchain
    simp [MatchChain] at hchain
    obtain ⟨h1, h2, h3⟩ := hchain
    have hnlt : ¬ i < real := by omega
    have hle : i - real ≤ (line.drop real).length := by
      simp [List.length_drop]; omega
    have hdd : (line.drop real).drop (i - real) = line.drop i := by
      rw [List.drop_drop]
      congr 1
      omega
    have hql : qlen ≤ ((line.drop real).drop (i - real)).length := by
      rw [hdd]
      simp [List.length_drop]; omega
    have hreal : real + (i - real) + qlen = i + qlen := by omega
    obtain ⟨out2, hrec, htext, hspan⟩ := ih (i + qlen) h3
    have hcall : sbmGo qlen (((line.drop real).drop (i - real)).drop qlen) rest
        (real + (i - real) + qlen) = some out2 := by
      rw [hdd, List.drop_drop, hreal]
      exact hrec
    have hpre_len : ((line.drop real).take (i - real)).length = i - real := by
      simp [List.length_take]
      omega
    have hred : ((line.drop real).drop (i - real)).take qlen =
        (line.drop i).take qlen := by rw [hdd]
    have hred_len : ((line.drop i).take qlen).length = qlen := by
      simp [List.length_take, List.length_drop]
      omega
    have hdec : (line.drop i).drop qlen = line.drop (i + qlen) := by
      rw [List.drop_drop]
    have hval : sbmGo qlen (line.drop real) (i :: rest) real =
        some ((if ((line.drop real).take (i - real)).isEmpty then []
            else [(false, (line.drop real).take (i - real))]) ++
          (true, ((line.drop real).drop (i - real)).take qlen) :: out2) := by
      rw [sbmGo, if_neg hnlt, if_pos hle, if_pos hql, hcall]
      rfl
    refine ⟨_, hval, ?_, ?_⟩
    · have hout2 : chunksText out2 =
          ((line.drop real).drop (i - real)).drop qlen := by
        rw [htext, hdd, hdec]
      have hifText : chunksText
          ((if ((line.drop real).take (i - real)).isEmpty then []
            else [(false, (line.drop real).take (i - real))]) ++
            (true, ((line.drop real).drop (i - real)).take qlen) :: out2) =
          (line.drop real).take (i - real) ++
            (((line.drop real).drop (i - real)).take qlen ++ chunksText out2) := by
        by_cases hpe : ((line.drop real).take (i - real)).isEmpty
        · simp [hpe, chunksText, List.isEmpty_iff.mp hpe]
        · simp [hpe, chunksText_append, chunksText]
      rw [hifText, hout2, List.take_append_drop, List.take_append_drop]
    · have hredlen2 : (((line.drop real).drop (i - real)).take qlen).length
          = qlen := by
        rw [hred]; exact hred_len
      by_cases hpe : ((line.drop real).take (i - real)).isEmpty
      · have hpe2 := List.isEmpty_iff.mp hpe
        have hi : i = real := by
          have hl := hpre_len
          rw [hpe2] at hl
          simp at hl
          omega
        subst hi
        simp [hpe, redSpansAux, hredlen2, hspan]
        refine ⟨by omega, ?_⟩
        rw [min_eq_left (by omega : qlen ≤ List.length line - i)]
        exact hspan
      · have hri : real + (i - real) = i := by omega
        simp [hpe, redSpansAux, hpre_len, hredlen2, hri, hspan]
        refine ⟨by omega, ?_⟩
        rw [min_eq_left (by omega : qlen ≤ List.length line - i)]
        exact hspan


/-- C9: for every query and contents, every `(indices, (line_number, line))`
element that `search` returns can be split by `split_by_matches` with
`query.len()` without panicking, and the resulting chunks concatenate back
to exactly the original line, with the red chunks covering exactly the
spans `(i, query.len())` for the reported match indices `i` and everything
else in normal (unchanged) chunks. -/
theorem C9_split_marks_exactly_the_matches (query contents : Str)
    (idxs : List Nat) (ln : Nat) (line : Str)
    (h : (idxs, (ln, line)) ∈ search query contents) :
    ∃ out, split_by_matches line idxs query.length = some out ∧
      chunksText out = line ∧
      redSpans out = idxs.map (fun i => (i, query.length)) := by
  have hidx : idxs = matchIndices query line := by
    rw [search] at h
    obtain ⟨hmap, _⟩ := List.mem_filter.mp h
    obtain ⟨a, _, heq⟩ := List.mem_map.mp hmap
    have h1 : matchIndices query a.2 = idxs := congrArg Prod.fst heq
    have h2 : a.2 = line := congrArg (fun p => p.2.2) heq
    rw [← h1, h2]
  subst hidx
  obtain ⟨out, hout, htext, hspan⟩ :=
    sbmGo_spec query.length line (matchIndices query line) 0
      (matchIndices_chain query line)
  exact ⟨out, by simpa [split_by_matches] using hout,
    by simpa using htext, by simpa [redSpans] using hspan⟩

/-- C9 witness: searching `a` in the one-line contents `ba` reports the
element `([1], (0, "ba"))`, and splitting marks exactly the span `(1, 1)`
red with the concatenation unchanged. -/
theorem C9_split_marks_exactly_the_matches_witness :
    ∃ out, split_by_matches ['b', 'a'] [1] (['a'] : Str).length = some out ∧
      chunksText out = ['b', 'a'] ∧
      redSpans out = [1].map (fun i => (i, (['a'] : Str).length)) :=
  C9_split_marks_exactly_the_matches ['a'] ['b', 'a'] [1] 0 ['b', 'a']
    (by decide)

/-- C10: for the empty query, `search` keeps every line of the contents
(the filter removes nothing, so the numbered lines are exactly
`lines().enumerate()`, empty lines included), and each kept element
carries a non-empty index list whose first index is 0. -/
theorem C10_empty_query_reports_every_line (contents : Str) :
    (search [] contents).map Prod.snd = (linesOf contents).enum ∧
      ∀ x ∈ search [] contents, x.1 ≠ [] ∧ x.1.head? = some 0 := by
  have hfilter : search [] contents =
      ((linesOf contents).enum).map
        (fun p => (matchIndices [] p.2, (p.1, p.2))) := by
    rw [search]
    apply List.filter_eq_self.mpr
    intro x hx
    obtain ⟨a, _, rfl⟩ := List.mem_map.mp hx
    simp [matchIndices, List.isEmpty_iff, List.range_eq_nil]
  constructor
  · rw [hfilter, List.map_map]
    have hcomp : (Prod.snd ∘ fun (p : Nat × Str) => (matchIndices [] p.2, p))
        = id := rfl
    rw [hcomp, List.map_id]
  · intro x hx
    rw [hfilter] at hx
    obtain ⟨a, _, rfl⟩ := List.mem_map.mp hx
    constructor
    · simp [matchIndices, List.range_eq_nil]
    · have hr : List.range (a.2.length + 1) = 0 :: List.range' 1 a.2.length := by
        rw [List.range_eq_range']
        simp [List.range']
      simp [matchIndices, hr]

/-- C10 witness: with contents `ab\n\ncd` (three lines, one empty), the
empty-query search reports all three numbered lines, each with a non-empty
index list starting at 0. -/
theorem C10_empty_query_reports_every_line_witness :
    (search [] (String.toList "ab\x0a\x0acd")).map Prod.snd =
        (linesOf (String.toList "ab\x0a\x0acd")).enum ∧
      ∀ x ∈ search [] (String.toList "ab\x0a\x0acd"),
        x.1 ≠ [] ∧ x.1.head? = some 0 :=
  C10_empty_query_reports_every_line (String.toList "ab\x0a\x0acd")

/-!
## Regression checks against the repository's own tests

These mirror the doctests and unit tests of src/lib.rs
(`lib_tests::case_sensitive`, `lib_tests::case_insensitive`,
`lib_tests::split_one_match`, `lib_tests::split_multiple_matches`) to pin
the embedding to the source's observable behaviour.
-/

theorem test_case_sensitive :
    search ([ 'd', 'u', 'c', 't' ])
      (String.toList "Rust:\nsafe, fast, productive.\nPick three.\nDUCT TAPE!") =
      [([15], (1, String.toList "safe, fast, productive."))] := by decide

theorem test_case_insensitive :
    search_case_insensitive ([ 'r', 'U', 's', 'T' ])
      (String.toList "Rust:\nsafe, fast, productive.\nPick three, rustrust.\nTrust me.") =
      [([0], (0, String.toList "Rust:")),
       ([12, 16], (2, String.toList "Pick three, rustrust.")),
       ([1], (3, String.toList "Trust me."))] := by decide

theorem test_split_one_match :
    split_by_matches (String.toList "safe, fast, productive.") [15] 4 =
      some [(false, String.toList "safe, fast, pro"), (true, String.toList "duct"),
            (false, String.toList "ive.")] := by decide

theorem test_split_multiple_matches :
    split_by_matches (String.toList "Pick three, rustrust.") [12, 16] 4 =
      some [(false, String.toList "Pick three, "), (true, String.toList "rust"),
            (true, String.toList "rust"), (false, String.toList ".")] := by decide
